import Mathlib

/-!
Verification development for the SQLChain stream-pipeline library
(`src/chain.py`).  The pipeline API (`Stream`, `ParallelStream`) is shallowly
embedded: Python iterators become consumable `List`s (the source is a
generator in the library, exhausted by the first full traversal), exceptions
become `Except PyError`, and the mutable `ExecutionStats` object shared by a
chain is threaded explicitly through every operation.  Machine integers from
Python are unbounded, so `Int`/`Nat` model them exactly.
-/

/-- The `ExecutionStats` dataclass: mutable counters shared across one
pipeline chain.  `failed_items` and `execution_time` are declared in the
source but never updated by any operation. -/
structure ExecutionStats where
  processed_items : Nat := 0
  failed_items : Nat := 0
  execution_time : Int := 0
  error_count : Nat := 0
deriving Repr, DecidableEq

/-- The `ParallelConfig` dataclass.  Python integers may be negative and the
constructor performs no validation, hence `Int` fields. -/
structure ParallelConfig where
  chunk_size : Int := 1000
  num_workers : Int := 1
  timeout : Option Int := none
  retry_count : Int := 3
  retry_delay : Int := 1
deriving Repr, DecidableEq

/-- The exceptions that the embedded operations can raise.
`emptyReduce`, `zeroChunkStep` and `badWorkerCount` are raw `ValueError`s
(raised outside any `try` block in the source); `parallelExecFailed` is the
wrapped `ParallelExecutionError`; `streamErr` is `StreamError`. -/
inductive PyError where
  | emptyReduce
  | zeroChunkStep
  | badWorkerCount
  | parallelExecFailed
  | streamErr
deriving Repr, DecidableEq

/-- A queued pipeline: the composition of all transforms of a stream applied
to the source data, threading the shared `ExecutionStats` (parallel stages
mutate it, sequential stages do not). -/
abbrev Transform (σ τ : Type) := List σ → ExecutionStats → Except PyError (List τ) × ExecutionStats

/-- The sequential `Stream` class.  `source` holds the not-yet-consumed
elements of the source iterator; `cached` is `_cached_results`. -/
structure SeqStream (σ τ : Type) where
  source : List σ
  transforms : Transform σ τ
  stats : ExecutionStats
  cached : Option (List τ) := none

/-- The `ParallelStream` class: a stream together with its `ParallelConfig`. -/
structure ParallelStream (σ τ : Type) where
  source : List σ
  transforms : Transform σ τ
  config : ParallelConfig
  stats : ExecutionStats
  cached : Option (List τ) := none

/-- Python `Stream(source=...)` with no queued transforms: `_execute` returns the
source unchanged. -/
def mkStream (l : List σ) : SeqStream σ σ :=
  { source := l, transforms := fun d st => (.ok d, st), stats := {}, cached := none }

/-- Model of `Stream.map`: appends a lazy element-wise transform; shares source and
stats, fresh `_cached_results`. -/
def SeqStream.map (s : SeqStream σ τ) (f : τ → ρ) : SeqStream σ ρ :=
  { source := s.source
    transforms := fun d st =>
      match s.transforms d st with
      | (.ok r, st') => (.ok (r.map f), st')
      | (.error e, st') => (.error e, st')
    stats := s.stats
    cached := none }

/-- Model of `Stream.filter`: appends a lazy order-preserving filter. -/
def SeqStream.filter (s : SeqStream σ τ) (p : τ → Bool) : SeqStream σ τ :=
  { source := s.source
    transforms := fun d st =>
      match s.transforms d st with
      | (.ok r, st') => (.ok (r.filter p), st')
      | (.error e, st') => (.error e, st')
    stats := s.stats
    cached := none }

/-- Python `sorted(items, key=key)`: sort by the key function (insertion sort is a
faithful model of the sort contract: a permutation, sorted by key). -/
def sortByKey [LinearOrder K] (key : τ → K) (l : List τ) : List τ :=
  List.insertionSort (fun a b => key a ≤ key b) l

/-- Structural worker for `pyGroupBy`; `fuel` bounds the recursion depth and
any `fuel ≥ length` computes the function (each step drops at least the head
element). -/
def pyGroupByGo [DecidableEq K] (key : τ → K) : Nat → List τ → List (K × List τ)
  | _, [] => []
  | 0, _ :: _ => []
  | fuel + 1, x :: xs =>
    (key x, x :: xs.takeWhile (fun y => key y = key x)) ::
      pyGroupByGo key fuel (xs.dropWhile (fun y => key y = key x))

/-- Python `itertools.groupby(m, key=key)`: one `(key, run)` pair per maximal run of
consecutive elements sharing a key. -/
def pyGroupBy [DecidableEq K] (key : τ → K) (l : List τ) : List (K × List τ) :=
  pyGroupByGo key l.length l

/-- The body of `Stream.group_by`'s transform: sort by key, then group
consecutive equal keys. -/
def groupByTransform [LinearOrder K] (key : τ → K) (l : List τ) : List (K × List τ) :=
  pyGroupBy key (sortByKey key l)

/-- Model of `Stream.group_by`. -/
def SeqStream.group_by [LinearOrder K] (s : SeqStream σ τ) (key : τ → K) :
    SeqStream σ (K × List τ) :=
  { source := s.source
    transforms := fun d st =>
      match s.transforms d st with
      | (.ok r, st') => (.ok (groupByTransform key r), st')
      | (.error e, st') => (.error e, st')
    stats := s.stats
    cached := none }

/-- Python `x or default` for the optional integer arguments of
`Stream.parallel`: `None` and `0` are falsy and replaced by the default;
every other integer (including negatives) is kept. -/
def orDefault (x : Option Int) (d : Int) : Int :=
  match x with
  | none => d
  | some v => if v = 0 then d else v

/-- Model of `Stream.parallel(num_workers, chunk_size, timeout)`: builds a
`ParallelConfig` without any validation and carries the queued transforms
over unchanged. -/
def SeqStream.parallel (s : SeqStream σ τ) (num_workers chunk_size : Option Int)
    (timeout : Option Int) : ParallelStream σ τ :=
  { source := s.source
    transforms := s.transforms
    config := { num_workers := orDefault num_workers 1
                chunk_size := orDefault chunk_size 1000
                timeout := timeout }
    stats := s.stats
    cached := none }

def chunkDataGo (c : Nat) : Nat → List α → List (List α)
  | _, [] => []
  | 0, _ :: _ => []
  | fuel + 1, x :: xs => (x :: xs).take c :: chunkDataGo c fuel ((x :: xs).drop c)

/-- Model of `ParallelStream._chunk_data` for a positive chunk size `c`:
`data[i:i+c]` for `i = 0, c, 2c, ...` (structural worker above; for `c ≥ 1`
any fuel `≥ length` computes it, since each step drops `c ≥ 1` elements). -/
def chunkData (c : Nat) (data : List α) : List (List α) :=
  chunkDataGo c data.length data

/-- Model of `ParallelStream._chunk_data` over a Python `int` chunk size:
`range(0, len(data), 0)` raises `ValueError`, a negative step yields an
empty range (the data is silently dropped), a positive step chunks. -/
def chunkDataI (c : Int) (data : List α) : Except PyError (List (List α)) :=
  if c = 0 then .error .zeroChunkStep
  else if c < 0 then .ok []
  else .ok (chunkData c.toNat data)

/-- The transform body of `ParallelStream.map`: materialize, chunk
(`ValueError` propagates raw on a zero chunk size), create the worker pool
(`ValueError` propagates raw on `max_workers <= 0`), apply `f` to every
element of every chunk, emit the chunk results in chunk index order
(`executor.map` yields results in argument order), and add each chunk
result's length to `processed_items`. -/
def parMapStage (cfg : ParallelConfig) (f : σ → τ) (data : List σ)
    (st : ExecutionStats) : Except PyError (List τ) × ExecutionStats :=
  match chunkDataI cfg.chunk_size data with
  | .error e => (.error e, st)
  | .ok chunks =>
    if cfg.num_workers ≤ 0 then (.error .badWorkerCount, st)
    else
      let out := (chunks.map (fun ch => ch.map f)).flatten
      (.ok out, { st with processed_items := st.processed_items + out.length })

/-- The transform body of `ParallelStream.filter`, analogous to
`parMapStage` with a per-chunk list comprehension filter. -/
def parFilterStage (cfg : ParallelConfig) (p : σ → Bool) (data : List σ)
    (st : ExecutionStats) : Except PyError (List σ) × ExecutionStats :=
  match chunkDataI cfg.chunk_size data with
  | .error e => (.error e, st)
  | .ok chunks =>
    if cfg.num_workers ≤ 0 then (.error .badWorkerCount, st)
    else
      let out := (chunks.map (fun ch => ch.filter p)).flatten
      (.ok out, { st with processed_items := st.processed_items + out.length })

/-- Model of `ParallelStream.map`. -/
def ParallelStream.map (s : ParallelStream σ τ) (f : τ → ρ) : ParallelStream σ ρ :=
  { source := s.source
    transforms := fun d st =>
      match s.transforms d st with
      | (.ok r, st') => parMapStage s.config f r st'
      | (.error e, st') => (.error e, st')
    config := s.config
    stats := s.stats
    cached := none }

/-- Model of `ParallelStream.filter`. -/
def ParallelStream.filter (s : ParallelStream σ τ) (p : τ → Bool) : ParallelStream σ τ :=
  { source := s.source
    transforms := fun d st =>
      match s.transforms d st with
      | (.ok r, st') => parFilterStage s.config p r st'
      | (.error e, st') => (.error e, st')
    config := s.config
    stats := s.stats
    cached := none }

/-- Model of `Stream.collect`: `list(self._execute())`.  No caching: it re-runs the
transforms over whatever remains of the source and exhausts the source. -/
def SeqStream.collect (s : SeqStream σ τ) : Except PyError (List τ) × SeqStream σ τ :=
  match s.transforms s.source s.stats with
  | (r, st') => (r, { s with source := [], stats := st' })

/-- Model of `BaseStream.collect_async` on a sequential stream: return the cache when
present, otherwise execute, exhaust the source and fill the cache (left
empty when execution raises). -/
def SeqStream.collectAsync (s : SeqStream σ τ) : Except PyError (List τ) × SeqStream σ τ :=
  match s.cached with
  | some r => (.ok r, s)
  | none =>
    match s.transforms s.source s.stats with
    | (.ok r, st') => (.ok r, { s with source := [], stats := st', cached := some r })
    | (.error e, st') => (.error e, { s with source := [], stats := st' })

/-- Model of `BaseStream.collect_async` on a parallel stream (same inherited body). -/
def ParallelStream.collectAsync (s : ParallelStream σ τ) :
    Except PyError (List τ) × ParallelStream σ τ :=
  match s.cached with
  | some r => (.ok r, s)
  | none =>
    match s.transforms s.source s.stats with
    | (.ok r, st') => (.ok r, { s with source := [], stats := st', cached := some r })
    | (.error e, st') => (.error e, { s with source := [], stats := st' })

/-- Python `functools.reduce(f, l)` with no initial value: `None` on the empty
list (where Python raises `TypeError`), else the left fold seeded with the
head. -/
def foldl1 (f : α → α → α) : List α → Option α
  | [] => none
  | x :: xs => some (xs.foldl f x)

/-- Per-chunk unseeded reduction followed by `asyncio.gather`: the result
list keeps task submission order; if any chunk's reduction raises (only
possible on an empty chunk) the whole gather raises. -/
def gatherReduce (f : α → α → α) : List (List α) → Option (List α)
  | [] => some []
  | ch :: rest =>
    match foldl1 f ch, gatherReduce f rest with
    | some v, some rs => some (v :: rs)
    | _, _ => none

/-- Model of `ParallelStream.reduce_async(func, initial)`: materialize the upstream
(`ValueError` on empty data, before `initial` is consulted), chunk, reduce
each chunk without a seed (`asyncio.gather` keeps task submission order),
assign `processed_items = len(data)`, then fold the chunk results, seeded
with `initial` when given.  Failures inside the `try` increment
`error_count` and surface as `ParallelExecutionError`. -/
def ParallelStream.reduceAsync (p : ParallelStream σ α) (f : α → α → α)
    (initial : Option α) : Except PyError α × ParallelStream σ α :=
  match p.transforms p.source p.stats with
  | (.error e, st1) => (.error e, { p with source := [], stats := st1 })
  | (.ok data, st1) =>
    if data.isEmpty then (.error .emptyReduce, { p with source := [], stats := st1 })
    else
      match chunkDataI p.config.chunk_size data with
      | .error e => (.error e, { p with source := [], stats := st1 })
      | .ok chunks =>
        if p.config.num_workers ≤ 0 then
          (.error .badWorkerCount, { p with source := [], stats := st1 })
        else
          match gatherReduce f chunks with
          | none =>
            (.error .parallelExecFailed,
              { p with source := [],
                       stats := { st1 with error_count := st1.error_count + 1 } })
          | some rs =>
            match initial with
            | some i =>
              (.ok (rs.foldl f i),
                { p with source := [], stats := { st1 with processed_items := data.length } })
            | none =>
              match foldl1 f rs with
              | some v =>
                (.ok v,
                  { p with source := [], stats := { st1 with processed_items := data.length } })
              | none =>
                (.error .parallelExecFailed,
                  { p with source := [],
                           stats := { st1 with processed_items := data.length,
                                               error_count := st1.error_count + 1 } })

/-- Outcome of `ParallelStream._retry_operation`: a value, a propagated
exception, or Python's implicit `None` when the `while` body never runs. -/
inductive RetryResult (α : Type) where
  | ok (a : α)
  | raised
  | noneReturn
deriving Repr, DecidableEq

/-- The `while retry_count > 0` loop of `_retry_operation` with a natural
counter: at counter `0` the loop body never runs and the function falls off
the end (Python's implicit `None`). -/
def retryGo (op : Nat → Option α) : Nat → Nat → RetryResult α × Nat
  | _, 0 => (.noneReturn, 0)
  | attempt, c + 1 =>
    match op attempt with
    | some a => (.ok a, 0)
    | none =>
      if c > 0 then
        match retryGo op (attempt + 1) c with
        | (r, sleeps) => (r, sleeps + 1)
      else (.raised, 0)

/-- Model of `ParallelStream._retry_operation`: `op i` is the outcome of the `i`-th
attempt (`none` = the operation raised).  Returns the outcome together with
the number of `asyncio.sleep(retry_delay)` calls performed.  A non-positive
`retry_count` never enters the loop. -/
def retryOperation (op : Nat → Option α) (attempt : Nat) (c : Int) :
    RetryResult α × Nat :=
  retryGo op attempt c.toNat

/-- A transform that never touches the shared statistics; every transform
built from sequential-only builders satisfies this. -/
def StatsPreserving (t : Transform σ τ) : Prop :=
  ∀ d st, (t d st).2 = st

/-! Section: Chunking lemmas. -/

theorem chunkDataGo_nil (c fuel : Nat) : chunkDataGo c fuel ([] : List α) = [] := by
  cases fuel <;> rfl

theorem chunkDataGo_ne_nil (c fuel : Nat) (l : List α) (hl : l ≠ []) (hf : 1 ≤ fuel) :
    chunkDataGo c fuel l ≠ [] := by
  cases fuel with
  | zero => omega
  | succ n => cases l with
    | nil => exact absurd rfl hl
    | cons x xs => simp [chunkDataGo]

theorem chunkDataGo_flatten {c : Nat} (hc : 1 ≤ c) :
    ∀ (fuel : Nat) (l : List α), l.length ≤ fuel → (chunkDataGo c fuel l).flatten = l := by
  intro fuel
  induction fuel with
  | zero =>
    intro l h
    have hl : l = [] := by cases l <;> simp_all
    subst hl
    simp [chunkDataGo_nil]
  | succ n ih =>
    intro l h
    cases l with
    | nil => simp [chunkDataGo_nil]
    | cons x xs =>
      have hlen : ((x :: xs).drop c).length ≤ n := by
        rw [List.length_drop]
        simp only [List.length_cons] at h ⊢
        omega
      simp only [chunkDataGo, List.flatten_cons, ih _ hlen, List.take_append_drop]

theorem chunkData_flatten {c : Nat} (hc : 1 ≤ c) (l : List α) :
    (chunkData c l).flatten = l :=
  chunkDataGo_flatten hc l.length l le_rfl

theorem chunkDataGo_mem {c : Nat} (hc : 1 ≤ c) :
    ∀ (fuel : Nat) (l : List α), l.length ≤ fuel →
      ∀ ch ∈ chunkDataGo c fuel l, ch ≠ [] ∧ ch.length ≤ c := by
  intro fuel
  induction fuel with
  | zero =>
    intro l h
    have hl : l = [] := by cases l <;> simp_all
    subst hl
    simp [chunkDataGo_nil]
  | succ n ih =>
    intro l h ch hch
    cases l with
    | nil => simp [chunkDataGo_nil] at hch
    | cons x xs =>
      have hlen : ((x :: xs).drop c).length ≤ n := by
        rw [List.length_drop]
        simp only [List.length_cons] at h ⊢
        omega
      simp only [chunkDataGo, List.mem_cons] at hch
      rcases hch with rfl | hch
      · constructor
        · obtain ⟨c', rfl⟩ := Nat.exists_eq_add_of_le hc
          simp [List.take_succ_cons]
        · simp [List.length_take]
      · exact ih _ hlen ch hch

theorem chunkDataGo_dropLast {c : Nat} (hc : 1 ≤ c) :
    ∀ (fuel : Nat) (l : List α), l.length ≤ fuel →
      ∀ ch ∈ (chunkDataGo c fuel l).dropLast, ch.length = c := by
  intro fuel
  induction fuel with
  | zero =>
    intro l h
    have hl : l = [] := by cases l <;> simp_all
    subst hl
    simp [chunkDataGo_nil]
  | succ n ih =>
    intro l h ch hch
    cases l with
    | nil => simp [chunkDataGo_nil] at hch
    | cons x xs =>
      have hlen : ((x :: xs).drop c).length ≤ n := by
        rw [List.length_drop]
        simp only [List.length_cons] at h ⊢
        omega
      by_cases hd : (x :: xs).drop c = []
      · simp only [chunkDataGo, hd, chunkDataGo_nil, List.dropLast_single] at hch
        simp at hch
      · have hn : 1 ≤ n := by
          rcases Nat.eq_zero_or_pos n with hn0 | hn0
          · subst hn0
            exact absurd (List.length_eq_zero.mp (Nat.le_zero.mp hlen)) hd
          · exact hn0
        have hrest := chunkDataGo_ne_nil c n _ hd hn
        simp only [chunkDataGo, List.dropLast_cons_of_ne_nil hrest, List.mem_cons] at hch
        rcases hch with rfl | hch
        · have hlt : c < (x :: xs).length := by
            by_contra hge
            exact hd (List.drop_eq_nil_of_le (by omega))
          simp only [List.length_take, List.length_cons] at hlt ⊢
          omega
        · exact ih _ hlen ch hch

/-! Section: Fold lemmas for reduce. -/

theorem foldl_of_assoc (f : α → α → α) (hf : ∀ a b d, f (f a b) d = f a (f b d)) :
    ∀ (l : List α) (a b : α), l.foldl f (f a b) = f a (l.foldl f b) := by
  intro l
  induction l with
  | nil => intro a b; rfl
  | cons x xs ih =>
    intro a b
    simp only [List.foldl_cons]
    rw [hf, ih]

theorem gatherReduce_chunkDataGo (f : α → α → α) {c : Nat} (hc : 1 ≤ c) :
    ∀ (fuel : Nat) (l : List α), l ≠ [] → l.length ≤ fuel →
      ∃ rs, gatherReduce f (chunkDataGo c fuel l) = some rs ∧ rs ≠ [] ∧
        ((∀ a b d, f (f a b) d = f a (f b d)) →
          (∀ i, rs.foldl f i = l.foldl f i) ∧ foldl1 f rs = foldl1 f l) := by
  intro fuel
  induction fuel with
  | zero =>
    intro l hl h
    exact absurd (List.length_eq_zero.mp (Nat.le_zero.mp h)) hl
  | succ n ih =>
    intro l hl h
    cases l with
    | nil => exact absurd rfl hl
    | cons x xs =>
      obtain ⟨c', rfl⟩ : ∃ c', c = c' + 1 := ⟨c - 1, by omega⟩
      have htake : (x :: xs).take (c' + 1) = x :: xs.take c' := List.take_succ_cons
      have hdrop : (x :: xs).drop (c' + 1) = xs.drop c' := List.drop_succ_cons
      have hlen : (xs.drop c').length ≤ n := by
        rw [List.length_drop]
        simp only [List.length_cons] at h
        omega
      by_cases hd : xs.drop c' = []
      · -- single chunk: the chunk is the whole list
        have hxs : xs.take c' = xs := by
          have := List.take_append_drop c' xs
          rw [hd, List.append_nil] at this
          exact this
        refine ⟨[(xs.take c').foldl f x], ?_, by simp, ?_⟩
        · simp only [chunkDataGo, htake, hdrop, hd, chunkDataGo_nil]
          rfl
        · intro hassoc
          constructor
          · intro i
            simp only [List.foldl_cons, List.foldl_nil, hxs]
            exact (foldl_of_assoc f hassoc xs i x).symm
          · simp [foldl1, hxs]
      · obtain ⟨rs', hrs', hne', hfold'⟩ := ih (xs.drop c') hd hlen
        refine ⟨(xs.take c').foldl f x :: rs', ?_, by simp, ?_⟩
        · simp only [chunkDataGo, htake, hdrop, gatherReduce, foldl1, hrs']
        · intro hassoc
          have hxs : xs.take c' ++ xs.drop c' = xs := List.take_append_drop c' xs
          constructor
          · intro i
            simp only [List.foldl_cons]
            rw [(hfold' hassoc).1 (f i ((xs.take c').foldl f x))]
            conv_rhs => rw [← hxs]
            rw [List.foldl_append]
            congr 1
            exact (foldl_of_assoc f hassoc (xs.take c') i x).symm
          · show some (rs'.foldl f ((xs.take c').foldl f x)) = some (xs.foldl f x)
            rw [(hfold' hassoc).1 ((xs.take c').foldl f x)]
            conv_rhs => rw [← hxs]
            rw [List.foldl_append]

/-! Section: Retry lemmas. -/

theorem retryGo_ne_noneReturn (op : Nat → Option α) :
    ∀ (c a : Nat), 1 ≤ c → (retryGo op a c).1 ≠ RetryResult.noneReturn := by
  intro c
  induction c with
  | zero => intro a h; omega
  | succ n ih =>
    intro a _
    simp only [retryGo]
    cases hop : op a with
    | some v => simp
    | none =>
      by_cases hn : n > 0
      · rw [if_pos hn]
        cases hr : retryGo op (a + 1) n with
        | mk r s =>
          have hne := ih (a + 1) hn
          rw [hr] at hne
          simpa using hne
      · rw [if_neg hn]
        simp

theorem retryGo_all_fail (op : Nat → Option α) :
    ∀ (c a : Nat), 1 ≤ c → (∀ j, j < c → op (a + j) = none) →
      retryGo op a c = (.raised, c - 1) := by
  intro c
  induction c with
  | zero => intro a h; omega
  | succ n ih =>
    intro a _ hfail
    have h0 : op a = none := by simpa using hfail 0 (by omega)
    simp only [retryGo, h0]
    by_cases hn : n > 0
    · rw [if_pos hn]
      rw [ih (a + 1) hn (fun j hj => by
        rw [show a + 1 + j = a + (j + 1) by omega]
        exact hfail (j + 1) (by omega))]
      have : n - 1 + 1 = n + 1 - 1 := by omega
      rw [this]
    · rw [if_neg hn]
      have hn0 : n = 0 := by omega
      subst hn0
      rfl

theorem retryGo_first_success (op : Nat → Option α) :
    ∀ (c k a : Nat) (v : α), k < c → (∀ j, j < k → op (a + j) = none) →
      op (a + k) = some v → retryGo op a c = (.ok v, k) := by
  intro c
  induction c with
  | zero => intro k a v h; omega
  | succ n ih =>
    intro k a v hk hfail hsucc
    cases k with
    | zero =>
      simp only [Nat.add_zero] at hsucc
      simp [retryGo, hsucc]
    | succ k' =>
      have h0 : op a = none := by simpa using hfail 0 (by omega)
      have hn : n > 0 := by omega
      simp only [retryGo, h0, if_pos hn]
      rw [ih k' (a + 1) v (by omega)
        (fun j hj => by
          rw [show a + 1 + j = a + (j + 1) by omega]
          exact hfail (j + 1) (by omega))
        (by rw [show a + 1 + k' = a + (k' + 1) by omega]; exact hsucc)]

/-! Section: Claim C1. -/

/-- C1 counterexample: `collect()` does not cache and re-executes; the
source generator is exhausted by the first call, so on `Stream([1])` the
first `collect()` returns `[1]`, the second returns `[]`, and
`_cached_results` is still unset after the first call. -/
theorem collect_second_call_differs :
    ((mkStream [1]).collect).1 = .ok [1]
  ∧ ((((mkStream [1]).collect).2).collect).1 = .ok ([] : List Nat)
  ∧ (((mkStream [1]).collect).2).cached = none :=
  ⟨rfl, rfl, rfl⟩

/-- C1 (amended): it is `collect_async()` that is idempotent via caching:
after a first successful call returning `r`, the result is cached, a second
call returns the same `r` with the stream state unchanged, and it performs
no re-execution (its result and state do not depend on the queued
transforms at all). -/
theorem collectAsync_caches_and_idempotent (s : SeqStream σ τ) (r : List τ)
    (s1 : SeqStream σ τ) (h : s.collectAsync = (.ok r, s1)) :
    s1.cached = some r
  ∧ s1.collectAsync = (.ok r, s1)
  ∧ (∀ t2 : Transform σ τ,
      SeqStream.collectAsync { s1 with transforms := t2 }
        = (.ok r, { s1 with transforms := t2 })) := by
  unfold SeqStream.collectAsync at h
  have hcache : s1.cached = some r := by
    cases hc : s.cached with
    | some r0 =>
      rw [hc] at h
      injection h with h1 h2
      injection h1 with h1
      subst h1
      subst h2
      exact hc
    | none =>
      rw [hc] at h
      cases ht : s.transforms s.source s.stats with
      | mk res st' =>
        rw [ht] at h
        cases res with
        | ok r' =>
          injection h with h1 h2
          injection h1 with h1
          subst h1
          subst h2
          rfl
        | error e =>
          injection h with h1 h2
          cases h1
  refine ⟨hcache, ?_, ?_⟩
  · unfold SeqStream.collectAsync
    rw [hcache]
  · intro t2
    unfold SeqStream.collectAsync
    show (match ({ s1 with transforms := t2 } : SeqStream σ τ).cached with
      | some r => (Except.ok r, { s1 with transforms := t2 })
      | none => _) = _
    rw [show ({ s1 with transforms := t2 } : SeqStream σ τ).cached = some r from hcache]

/-- C1 witness for the amended theorem: a concrete first call on
`Stream([2])` whose second `collect_async()` returns the cached `[2]`. -/
theorem collectAsync_caches_and_idempotent_witness :
    SeqStream.collectAsync { mkStream [2] with source := [], cached := some [2] }
      = (.ok [2], { mkStream [2] with source := [], cached := some [2] }) :=
  (collectAsync_caches_and_idempotent (mkStream [2]) [2]
    { mkStream [2] with source := [], cached := some [2] } rfl).2.1

/-! Section: Claim C2. -/

/-- C2 counterexample: `reduce_async` on an empty materialized sequence
raises `ValueError` even when an initial seed (here `5`) is supplied — the
seed is not returned. -/
theorem reduceAsync_empty_seed_still_fails :
    (((mkStream ([] : List Nat)).parallel (some 1) (some 2) none).reduceAsync
        (fun a b => a + b) (some 5)).1 = .error .emptyReduce := rfl

/-- C2 (amended): on an empty materialized upstream sequence `reduce_async`
raises the empty-input `ValueError` unconditionally, whether or not an
initial seed is supplied (the emptiness check precedes any use of
`initial`). -/
theorem reduceAsync_empty_always_fails (p : ParallelStream σ α) (f : α → α → α)
    (initial : Option α) (st1 : ExecutionStats)
    (h : p.transforms p.source p.stats = (.ok [], st1)) :
    (p.reduceAsync f initial).1 = .error .emptyReduce := by
  unfold ParallelStream.reduceAsync
  rw [h]
  rfl

/-- C2 witness: the amended theorem applied to a concrete empty pipeline
with no seed. -/
theorem reduceAsync_empty_always_fails_witness :
    ((((mkStream ([] : List Nat)).parallel (some 1) (some 2) none)).reduceAsync
        (fun a b => a + b) none).1 = .error .emptyReduce :=
  reduceAsync_empty_always_fails _ _ none {} rfl

/-! Section: Claim C7. -/

/-- C7: `parallel(...)` performs no validation.  A negative chunk size and
worker count are accepted at build time and stored in the config; zero
values are silently replaced by the defaults via Python `or`; the failure
(or, for a negative chunk size, silent loss of all data) only surfaces when
a stage executes.  No `ConfigurationError` exists in the code. -/
theorem parallel_accepts_invalid_config :
    ((mkStream [1]).parallel (some (-2)) (some (-1)) none).config
      = { chunk_size := -1, num_workers := -2, timeout := none }
  ∧ ((mkStream [1]).parallel (some 0) (some 0) none).config
      = { chunk_size := 1000, num_workers := 1, timeout := none }
  ∧ (parMapStage { chunk_size := -1, num_workers := -2 } (fun x : Nat => x) [1, 2, 3] {}).1
      = .error .badWorkerCount
  ∧ (parMapStage { chunk_size := -1, num_workers := 1 } (fun x : Nat => x) [1, 2, 3] {}).1
      = .ok []
  ∧ (parMapStage { chunk_size := 0, num_workers := 1 } (fun x : Nat => x) [1, 2, 3] {}).1
      = .error .zeroChunkStep :=
  ⟨by decide, by decide, rfl, rfl, rfl⟩

/-! Section: Claim C8. -/

/-- C8 counterexample: with `retry_count = 0` (a non-negative value) the
retry helper never attempts the operation — even one that would succeed —
and silently returns `None` instead of succeeding or raising. -/
theorem retryOperation_zero_silently_returns :
    retryOperation (fun _ => some 42) 0 0 = (RetryResult.noneReturn, 0) := rfl

/-- C8 (amended): for `retry_count ≥ 1` the helper attempts the operation;
on each failure with remaining retries it sleeps `retry_delay` once and
retries; after `retry_count` failed attempts it propagates the failure
(having slept `retry_count - 1` times); a first success at attempt `k`
returns its value after `k` sleeps; it never returns `None`.  For
`retry_count ≤ 0` the loop body never runs and the helper silently returns
`None` with no attempt made. -/
theorem retryOperation_spec (op : Nat → Option α) (a : Nat) (c : Int) (hc : 1 ≤ c) :
    ((retryOperation op a c).1 ≠ RetryResult.noneReturn)
  ∧ ((∀ j, j < c.toNat → op (a + j) = none) →
      retryOperation op a c = (.raised, c.toNat - 1))
  ∧ (∀ k v, k < c.toNat → (∀ j, j < k → op (a + j) = none) → op (a + k) = some v →
      retryOperation op a c = (.ok v, k))
  ∧ (∀ c' : Int, c' ≤ 0 → ∀ (op2 : Nat → Option α) (a2 : Nat),
      retryOperation op2 a2 c' = (.noneReturn, 0)) := by
  have hc1 : 1 ≤ c.toNat := by omega
  refine ⟨retryGo_ne_noneReturn op c.toNat a hc1,
          fun h => retryGo_all_fail op c.toNat a hc1 h,
          fun k v hk hf hs => retryGo_first_success op c.toNat k a v hk hf hs,
          fun c' hc' op2 a2 => ?_⟩
  unfold retryOperation
  rw [show c'.toNat = 0 by omega]
  rfl

/-- C8 witness: an operation failing on attempts 0 and 1 and succeeding on
attempt 2, run with `retry_count = 3`: returns the value after 2 sleeps. -/
theorem retryOperation_spec_witness :
    retryOperation (fun i => if i < 2 then none else some 7) 0 3 = (.ok 7, 2) :=
  (retryOperation_spec (fun i => if i < 2 then none else some 7) 0 3 (by decide)).2.2.1
    2 7 (by decide)
    (fun j hj => by
      have hj01 : j = 0 ∨ j = 1 := by omega
      rcases hj01 with rfl | rfl <;> rfl)
    rfl

/-! Section: Claim C10. -/

/-- C10: sequential-only pipelines never touch the shared stats: the empty
pipeline's transform is stats-preserving, the sequential builders `map`,
`filter` and `group_by` preserve that property, and executing a terminal
`collect()` (or `collect_async()`) on any stats-preserving pipeline leaves
every `ExecutionStats` field exactly as it was, whether the execution
succeeds or raises. -/
theorem seq_collect_preserves_stats (σ τ ρ K : Type) [LinearOrder K] :
    (∀ l : List σ, StatsPreserving (mkStream l).transforms)
  ∧ (∀ (s : SeqStream σ τ) (f : τ → ρ),
      StatsPreserving s.transforms → StatsPreserving (s.map f).transforms)
  ∧ (∀ (s : SeqStream σ τ) (q : τ → Bool),
      StatsPreserving s.transforms → StatsPreserving (s.filter q).transforms)
  ∧ (∀ (s : SeqStream σ τ) (key : τ → K),
      StatsPreserving s.transforms → StatsPreserving (s.group_by key).transforms)
  ∧ (∀ s : SeqStream σ τ, StatsPreserving s.transforms →
      (s.collect).2.stats = s.stats ∧ (s.collectAsync).2.stats = s.stats) := by
  refine ⟨fun l d st => rfl, ?_, ?_, ?_, ?_⟩
  · intro s f h d st
    have hst := h d st
    cases ht : s.transforms d st with
    | mk res st' =>
      rw [ht] at hst
      simp only [SeqStream.map, ht]
      cases res <;> simpa using hst
  · intro s q h d st
    have hst := h d st
    cases ht : s.transforms d st with
    | mk res st' =>
      rw [ht] at hst
      simp only [SeqStream.filter, ht]
      cases res <;> simpa using hst
  · intro s key h d st
    have hst := h d st
    cases ht : s.transforms d st with
    | mk res st' =>
      rw [ht] at hst
      simp only [SeqStream.group_by, ht]
      cases res <;> simpa using hst
  · intro s h
    constructor
    · have hst := h s.source s.stats
      cases ht : s.transforms s.source s.stats with
      | mk res st' =>
        rw [ht] at hst
        simp only [SeqStream.collect, ht]
        simpa using hst
    · have hst := h s.source s.stats
      cases hcc : s.cached with
      | some r => simp [SeqStream.collectAsync, hcc]
      | none =>
        cases ht : s.transforms s.source s.stats with
        | mk res st' =>
          rw [ht] at hst
          simp only [SeqStream.collectAsync, hcc, ht]
          cases res <;> simpa using hst

/-- C10 witness: a concrete sequential pipeline whose `collect()` leaves the
freshly-initialized stats untouched. -/
theorem seq_collect_preserves_stats_witness :
    ((((mkStream [1, 2, 3]).map (fun x => x + 1)).filter (fun x => 2 < x)).collect).2.stats
      = ({} : ExecutionStats) := by
  have h := seq_collect_preserves_stats Nat Nat Nat Nat
  exact (h.2.2.2.2 _ (h.2.2.1 _ _ (h.2.1 _ _ (h.1 [1, 2, 3])))).1

/-! Section: Claim C5. -/

/-- C5: for every list and chunk size `c ≥ 1`, `_chunk_data` partitions the
list into contiguous order-preserving chunks: their concatenation is exactly
the original list, every chunk but the last has length exactly `c`, and
every chunk is non-empty of length at most `c`. -/
theorem chunkData_partitions (c : Nat) (hc : 1 ≤ c) (l : List α) :
    (chunkData c l).flatten = l
  ∧ (∀ ch ∈ (chunkData c l).dropLast, ch.length = c)
  ∧ (∀ ch ∈ chunkData c l, ch ≠ [] ∧ ch.length ≤ c) :=
  ⟨chunkData_flatten hc l, chunkDataGo_dropLast hc l.length l le_rfl,
   chunkDataGo_mem hc l.length l le_rfl⟩

/-- C5 witness: the partition property evaluated on `[1,2,3,4,5]` with chunk
size 2. -/
theorem chunkData_partitions_witness :
    (chunkData 2 [1, 2, 3, 4, 5]).flatten = [1, 2, 3, 4, 5] :=
  (chunkData_partitions 2 (by decide) [1, 2, 3, 4, 5]).1

/-! Section: Claim C4 helpers. -/

theorem chunkDataI_pos (c : Int) (hc : 1 ≤ c) (data : List α) :
    chunkDataI c data = .ok (chunkData c.toNat data) := by
  unfold chunkDataI
  rw [if_neg (by omega), if_neg (by omega)]

theorem parMapStage_ok (cfg : ParallelConfig) (hc : 1 ≤ cfg.chunk_size)
    (hn : 1 ≤ cfg.num_workers) (f : σ → τ) (data : List σ) (st : ExecutionStats) :
    parMapStage cfg f data st
      = (.ok (data.map f),
         { st with processed_items := st.processed_items + (data.map f).length }) := by
  have hflat : ((chunkData cfg.chunk_size.toNat data).map (fun ch => ch.map f)).flatten
      = data.map f := by
    rw [show (fun ch : List σ => ch.map f) = List.map f from rfl, ← List.map_flatten,
        chunkData_flatten (by omega)]
  simp only [parMapStage, chunkDataI_pos cfg.chunk_size hc data,
    if_neg (show ¬ cfg.num_workers ≤ 0 by omega), hflat]

/-! Section: Claim C4. -/

/-- C4: for every pure `f`, input, chunk size `c ≥ 1` and worker count
`n ≥ 1`, a parallel `map(f)` followed by a terminal collect yields exactly
`data.map f` — the same list, in the same order, as the sequential
`map(f)` followed by `collect()` (chunk results are reassembled in chunk
index order). -/
theorem parallel_map_matches_sequential (f : σ → τ) (data : List σ) (c n : Int)
    (hc : 1 ≤ c) (hn : 1 ≤ n) :
    ((((mkStream data).parallel (some n) (some c) none).map f).collectAsync).1
      = .ok (data.map f)
  ∧ (((mkStream data).map f).collect).1 = .ok (data.map f) := by
  constructor
  · have hcfg1 : orDefault (some c) 1000 = c := by
      simp only [orDefault]
      rw [if_neg (show ¬ c = 0 by omega)]
    have hcfg2 : orDefault (some n) 1 = n := by
      simp only [orDefault]
      rw [if_neg (show ¬ n = 0 by omega)]
    show (match parMapStage
        { num_workers := orDefault (some n) 1, chunk_size := orDefault (some c) 1000,
          timeout := none } f data {} with
      | (.ok r, st') => (Except.ok r, _)
      | (.error e, st') => (Except.error e, _)).1 = Except.ok (data.map f)
    rw [parMapStage_ok _ (by rw [hcfg1]; exact hc) (by rw [hcfg2]; exact hn)]
  · rfl

/-- C4 witness: squaring `[1,2,3]` with chunk size 1 and 2 workers gives
`[1,4,9]` in order. -/
theorem parallel_map_matches_sequential_witness :
    ((((mkStream [1, 2, 3]).parallel (some 2) (some 1) none).map
        (fun x => x * x)).collectAsync).1 = .ok [1, 4, 9] :=
  (parallel_map_matches_sequential (fun x => x * x) [1, 2, 3] 1 2 (by decide) (by decide)).1

/-! Section: Reduce unfolding helper. -/

theorem reduceAsync_pos_unfold (p : ParallelStream σ α) (f : α → α → α)
    (initial : Option α) (x : α) (xs : List α) (st1 : ExecutionStats)
    (r0 : α) (rtl : List α)
    (hrun : p.transforms p.source p.stats = (.ok (x :: xs), st1))
    (hc : 1 ≤ p.config.chunk_size) (hn : 1 ≤ p.config.num_workers)
    (hrs : gatherReduce f (chunkData p.config.chunk_size.toNat (x :: xs))
      = some (r0 :: rtl)) :
    p.reduceAsync f initial
      = (.ok (match initial with
              | some i => (r0 :: rtl).foldl f i
              | none => rtl.foldl f r0),
         { p with source := [],
                  stats := { st1 with processed_items := (x :: xs).length } }) := by
  unfold ParallelStream.reduceAsync
  rw [hrun]
  simp only [List.isEmpty_cons, Bool.false_eq_true, if_false, chunkDataI_pos _ hc, hrs,
    if_neg (show ¬ p.config.num_workers ≤ 0 by omega)]
  cases initial with
  | some i => rfl
  | none => rfl

/-! Section: Claim C9. -/

/-- C9: for associative (and commutative) `f`, a non-empty materialized
input `x :: xs`, chunk size ≥ 1 and worker count ≥ 1, `reduce_async(f,
initial?)` returns exactly the sequential left fold: `foldl f initial data`
when a seed is given, `foldl f x xs` (the unseeded `functools.reduce`)
otherwise — independently of the chunk size and worker count, which appear
only in the hypotheses. -/
theorem parallel_reduce_matches_fold (f : α → α → α)
    (hassoc : ∀ a b d, f (f a b) d = f a (f b d))
    (hcomm : ∀ a b, f a b = f b a)
    (p : ParallelStream σ α) (x : α) (xs : List α) (st1 : ExecutionStats)
    (hrun : p.transforms p.source p.stats = (.ok (x :: xs), st1))
    (hc : 1 ≤ p.config.chunk_size) (hn : 1 ≤ p.config.num_workers)
    (initial : Option α) :
    (p.reduceAsync f initial).1
      = .ok (match initial with
             | some i => (x :: xs).foldl f i
             | none => xs.foldl f x) := by
  obtain ⟨rs, hrs, hne, hfold⟩ :=
    gatherReduce_chunkDataGo f (show 1 ≤ p.config.chunk_size.toNat by omega)
      (x :: xs).length (x :: xs) (by simp) le_rfl
  cases rs with
  | nil => exact absurd rfl hne
  | cons r0 rtl =>
    cases initial with
    | some i =>
      rw [reduceAsync_pos_unfold p f (some i) x xs st1 r0 rtl hrun hc hn hrs]
      show Except.ok ((r0 :: rtl).foldl f i) = Except.ok ((x :: xs).foldl f i)
      rw [(hfold hassoc).1 i]
    | none =>
      rw [reduceAsync_pos_unfold p f none x xs st1 r0 rtl hrun hc hn hrs]
      show Except.ok (rtl.foldl f r0) = Except.ok (xs.foldl f x)
      have h2 := (hfold hassoc).2
      simpa [foldl1] using h2

/-- C9 witness: `reduce_async((+), initial=10)` over `[1,2,3]` with chunk
size 2 and 1 worker equals the seeded sequential fold `16`. -/
theorem parallel_reduce_matches_fold_witness :
    ((((mkStream [1, 2, 3]).parallel (some 1) (some 2) none)).reduceAsync
        (fun a b => a + b) (some 10)).1 = .ok 16 :=
  parallel_reduce_matches_fold (fun a b => a + b)
    (fun a b d => Nat.add_assoc a b d) (fun a b => Nat.add_comm a b)
    _ 1 [2, 3] {} rfl (by decide) (by decide) (some 10)

/-! Section: Claim C3. -/

/-- C3 counterexample: on `[1,2,3,4,5,6]` with two parallel `map(id)` stages
(chunk size 2), executing the queued transforms inside `reduce_async` leaves
the shared `processed_items` at 12, and `reduce_async` then overwrites it
with `len(data) = 6` — the shared counter decreases from 12 to 6 during the
lifetime of the chain. -/
theorem reduce_overwrites_processed_items :
    (((((mkStream [1, 2, 3, 4, 5, 6]).parallel (some 2) (some 2) none).map id).map
        id).transforms [1, 2, 3, 4, 5, 6] {}).2.processed_items = 12
  ∧ ((((((mkStream [1, 2, 3, 4, 5, 6]).parallel (some 2) (some 2) none).map id).map
        id)).reduceAsync (fun a b => a + b) none).2.stats.processed_items = 6 :=
  ⟨rfl, rfl⟩

/-- C3 (amended): the parallel `map`/`filter` stages only preserve or
increase `processed_items` and `error_count` and never touch `failed_items`
or `execution_time`; but `reduce_async` does not increment: on the success
path it overwrites `processed_items` with `len(data)`, which can be smaller
than the previously accumulated value, so the counters are not monotone
across a whole chain. -/
theorem stats_updates_characterized (σ τ α : Type) :
    (∀ (cfg : ParallelConfig) (f : σ → τ) (data : List σ) (st : ExecutionStats),
        st.processed_items ≤ (parMapStage cfg f data st).2.processed_items
      ∧ st.error_count ≤ (parMapStage cfg f data st).2.error_count
      ∧ (parMapStage cfg f data st).2.failed_items = st.failed_items
      ∧ (parMapStage cfg f data st).2.execution_time = st.execution_time)
  ∧ (∀ (cfg : ParallelConfig) (q : σ → Bool) (data : List σ) (st : ExecutionStats),
        st.processed_items ≤ (parFilterStage cfg q data st).2.processed_items
      ∧ st.error_count ≤ (parFilterStage cfg q data st).2.error_count
      ∧ (parFilterStage cfg q data st).2.failed_items = st.failed_items
      ∧ (parFilterStage cfg q data st).2.execution_time = st.execution_time)
  ∧ (∀ (p : ParallelStream σ α) (f : α → α → α) (initial : Option α)
        (data : List α) (st1 : ExecutionStats),
        p.transforms p.source p.stats = (.ok data, st1) → data ≠ [] →
        1 ≤ p.config.chunk_size → 1 ≤ p.config.num_workers →
        (p.reduceAsync f initial).2.stats
          = { st1 with processed_items := data.length }) := by
  refine ⟨?_, ?_, ?_⟩
  · intro cfg f data st
    cases hch : chunkDataI cfg.chunk_size data with
    | error e => simp [parMapStage, hch]
    | ok chunks =>
      by_cases hw : cfg.num_workers ≤ 0
      · simp [parMapStage, hch, hw]
      · simp [parMapStage, hch, hw, Nat.le_add_right]
  · intro cfg q data st
    cases hch : chunkDataI cfg.chunk_size data with
    | error e => simp [parFilterStage, hch]
    | ok chunks =>
      by_cases hw : cfg.num_workers ≤ 0
      · simp [parFilterStage, hch, hw]
      · simp [parFilterStage, hch, hw, Nat.le_add_right]
  · intro p f initial data st1 hrun hdata hc hn
    cases data with
    | nil => exact absurd rfl hdata
    | cons x xs =>
      obtain ⟨rs, hrs, hne, _⟩ :=
        gatherReduce_chunkDataGo f (show 1 ≤ p.config.chunk_size.toNat by omega)
          (x :: xs).length (x :: xs) (by simp) le_rfl
      cases rs with
      | nil => exact absurd rfl hne
      | cons r0 rtl =>
        rw [reduceAsync_pos_unfold p f initial x xs st1 r0 rtl hrun hc hn hrs]

/-- C3 witness: the amended reduce characterization evaluated on a concrete
pipeline: `reduce_async` over `[1,2,3]` sets `processed_items` to 3. -/
theorem stats_updates_characterized_witness :
    ((((mkStream [1, 2, 3]).parallel (some 1) (some 2) none)).reduceAsync
        (fun a b => a + b) none).2.stats = { processed_items := 3 } := by
  rw [(stats_updates_characterized Nat Nat Nat).2.2
    (((mkStream [1, 2, 3]).parallel (some 1) (some 2) none))
    (fun a b => a + b) none [1, 2, 3] {} rfl (by decide) (by decide) (by decide)]
  rfl

/-! Section: Group-by lemmas. -/

theorem pyGroupByGo_flatten [DecidableEq K] (key : τ → K) :
    ∀ (fuel : Nat) (l : List τ), l.length ≤ fuel →
      ((pyGroupByGo key fuel l).map Prod.snd).flatten = l := by
  intro fuel
  induction fuel with
  | zero =>
    intro l h
    have hl : l = [] := by cases l <;> simp_all
    subst hl
    rfl
  | succ n ih =>
    intro l h
    cases l with
    | nil => rfl
    | cons x xs =>
      have hlen : (xs.dropWhile (fun y => key y = key x)).length ≤ n := by
        have hd : (xs.dropWhile (fun y => key y = key x)).length ≤ xs.length :=
          (List.dropWhile_sublist _).length_le
        simp only [List.length_cons] at h
        omega
      simp only [pyGroupByGo, List.map_cons, List.flatten_cons, ih _ hlen]
      rw [List.cons_append, List.takeWhile_append_dropWhile]

theorem pyGroupByGo_homog [DecidableEq K] (key : τ → K) :
    ∀ (fuel : Nat) (l : List τ), l.length ≤ fuel →
      ∀ pr ∈ pyGroupByGo key fuel l, ∀ y ∈ pr.2, key y = pr.1 := by
  intro fuel
  induction fuel with
  | zero =>
    intro l h pr hpr
    have hl : l = [] := by cases l <;> simp_all
    subst hl
    simp [pyGroupByGo] at hpr
  | succ n ih =>
    intro l h pr hpr
    cases l with
    | nil => simp [pyGroupByGo] at hpr
    | cons x xs =>
      have hlen : (xs.dropWhile (fun y => key y = key x)).length ≤ n := by
        have hd : (xs.dropWhile (fun y => key y = key x)).length ≤ xs.length :=
          (List.dropWhile_sublist _).length_le
        simp only [List.length_cons] at h
        omega
      simp only [pyGroupByGo, List.mem_cons] at hpr
      rcases hpr with rfl | hpr
      · intro y hy
        rcases List.mem_cons.mp hy with rfl | hy2
        · rfl
        · have hy3 := List.mem_takeWhile_imp hy2
          simp only [decide_eq_true_eq] at hy3
          exact hy3
      · exact ih _ hlen pr hpr

theorem pyGroupByGo_key_mem [DecidableEq K] (key : τ → K) :
    ∀ (fuel : Nat) (l : List τ), l.length ≤ fuel →
      ∀ pr ∈ pyGroupByGo key fuel l, ∃ y ∈ l, pr.1 = key y := by
  intro fuel
  induction fuel with
  | zero =>
    intro l h pr hpr
    have hl : l = [] := by cases l <;> simp_all
    subst hl
    simp [pyGroupByGo] at hpr
  | succ n ih =>
    intro l h pr hpr
    cases l with
    | nil => simp [pyGroupByGo] at hpr
    | cons x xs =>
      have hlen : (xs.dropWhile (fun y => key y = key x)).length ≤ n := by
        have hd : (xs.dropWhile (fun y => key y = key x)).length ≤ xs.length :=
          (List.dropWhile_sublist _).length_le
        simp only [List.length_cons] at h
        omega
      simp only [pyGroupByGo, List.mem_cons] at hpr
      rcases hpr with rfl | hpr
      · exact ⟨x, by simp, rfl⟩
      · obtain ⟨y, hy, hk⟩ := ih _ hlen pr hpr
        exact ⟨y, List.mem_cons_of_mem x ((List.dropWhile_sublist _).subset hy), hk⟩

theorem mem_dropWhile_key_gt [LinearOrder K] (key : τ → K) (k0 : K) :
    ∀ (xs : List τ), (∀ y ∈ xs, k0 ≤ key y) →
      List.Sorted (fun a b => key a ≤ key b) xs →
      ∀ z ∈ xs.dropWhile (fun y => key y = k0), k0 < key z := by
  intro xs
  induction xs with
  | nil => intro _ _ z hz; simp at hz
  | cons y ys ih =>
    intro hge hs z hz
    rw [List.sorted_cons] at hs
    by_cases hy : key y = k0
    · rw [List.dropWhile_cons_of_pos (by simp [hy])] at hz
      exact ih (fun w hw => hy ▸ hs.1 w hw) hs.2 z hz
    · rw [List.dropWhile_cons_of_neg (by simpa using hy)] at hz
      have hky : k0 < key y := lt_of_le_of_ne (hge y (by simp)) (fun hEq => hy hEq.symm)
      rcases List.mem_cons.mp hz with rfl | hz2
      · exact hky
      · exact lt_of_lt_of_le hky (hs.1 z hz2)

theorem sorted_filter_eq_takeWhile [LinearOrder K] (key : τ → K) (k0 : K) :
    ∀ (xs : List τ), (∀ y ∈ xs, k0 ≤ key y) →
      List.Sorted (fun a b => key a ≤ key b) xs →
      xs.filter (fun y => key y = k0) = xs.takeWhile (fun y => key y = k0) := by
  intro xs
  induction xs with
  | nil => intro _ _; rfl
  | cons y ys ih =>
    intro hge hs
    rw [List.sorted_cons] at hs
    by_cases hy : key y = k0
    · rw [List.filter_cons_of_pos (by simp [hy]), List.takeWhile_cons_of_pos (by simp [hy])]
      rw [ih (fun w hw => hy ▸ hs.1 w hw) hs.2]
    · rw [List.filter_cons_of_neg (by simpa using hy),
          List.takeWhile_cons_of_neg (by simpa using hy)]
      rw [List.filter_eq_nil_iff]
      intro w hw
      have hky : k0 < key y := lt_of_le_of_ne (hge y (by simp)) (fun hEq => hy hEq.symm)
      have hkw : k0 < key w := lt_of_lt_of_le hky (hs.1 w hw)
      simp only [decide_eq_true_eq]
      exact fun hEq => absurd hEq.symm (ne_of_lt hkw)

theorem pyGroupByGo_group_eq_filter [LinearOrder K] (key : τ → K) :
    ∀ (fuel : Nat) (l : List τ), l.length ≤ fuel →
      List.Sorted (fun a b => key a ≤ key b) l →
      ∀ pr ∈ pyGroupByGo key fuel l, pr.2 = l.filter (fun y => key y = pr.1) := by
  intro fuel
  induction fuel with
  | zero =>
    intro l h _ pr hpr
    have hl : l = [] := by cases l <;> simp_all
    subst hl
    simp [pyGroupByGo] at hpr
  | succ n ih =>
    intro l h hs pr hpr
    cases l with
    | nil => simp [pyGroupByGo] at hpr
    | cons x xs =>
      rw [List.sorted_cons] at hs
      have hlen : (xs.dropWhile (fun y => key y = key x)).length ≤ n := by
        have hd : (xs.dropWhile (fun y => key y = key x)).length ≤ xs.length :=
          (List.dropWhile_sublist _).length_le
        simp only [List.length_cons] at h
        omega
      simp only [pyGroupByGo, List.mem_cons] at hpr
      rcases hpr with rfl | hpr
      · show x :: xs.takeWhile (fun y => key y = key x)
          = (x :: xs).filter (fun y => key y = key x)
        rw [List.filter_cons_of_pos (by simp)]
        rw [sorted_filter_eq_takeWhile key (key x) xs hs.1 hs.2]
      · have hsort2 : List.Sorted (fun a b => key a ≤ key b)
            (xs.dropWhile (fun y => key y = key x)) :=
          hs.2.sublist (List.dropWhile_sublist _)
        have IH := ih _ hlen hsort2 pr hpr
        obtain ⟨y0, hy0mem, hy0⟩ := pyGroupByGo_key_mem key n _ hlen pr hpr
        have hgt : key x < pr.1 := by
          rw [hy0]
          exact mem_dropWhile_key_gt key (key x) xs hs.1 hs.2 y0 hy0mem
        rw [IH, List.filter_cons_of_neg (by
          simp only [decide_eq_true_eq]
          exact ne_of_lt hgt)]
        conv_rhs => rw [← List.takeWhile_append_dropWhile (fun y => decide (key y = key x)) xs]
        rw [List.filter_append]
        have htw : (xs.takeWhile (fun y => key y = key x)).filter
            (fun y => key y = pr.1) = [] := by
          rw [List.filter_eq_nil_iff]
          intro w hw
          have hkw := List.mem_takeWhile_imp hw
          simp only [decide_eq_true_eq] at hkw
          simp only [decide_eq_true_eq]
          rw [hkw]
          exact ne_of_lt hgt
        rw [htw, List.nil_append]

theorem pyGroupByGo_keys_nodup [LinearOrder K] (key : τ → K) :
    ∀ (fuel : Nat) (l : List τ), l.length ≤ fuel →
      List.Sorted (fun a b => key a ≤ key b) l →
      ((pyGroupByGo key fuel l).map Prod.fst).Nodup := by
  intro fuel
  induction fuel with
  | zero =>
    intro l h _
    have hl : l = [] := by cases l <;> simp_all
    subst hl
    simp [pyGroupByGo]
  | succ n ih =>
    intro l h hs
    cases l with
    | nil => simp [pyGroupByGo]
    | cons x xs =>
      rw [List.sorted_cons] at hs
      have hlen : (xs.dropWhile (fun y => key y = key x)).length ≤ n := by
        have hd : (xs.dropWhile (fun y => key y = key x)).length ≤ xs.length :=
          (List.dropWhile_sublist _).length_le
        simp only [List.length_cons] at h
        omega
      have hsort2 : List.Sorted (fun a b => key a ≤ key b)
          (xs.dropWhile (fun y => key y = key x)) :=
        hs.2.sublist (List.dropWhile_sublist _)
      simp only [pyGroupByGo, List.map_cons, List.nodup_cons]
      refine ⟨?_, ih _ hlen hsort2⟩
      intro hmem
      obtain ⟨pr, hpr, hfst⟩ := List.mem_map.mp hmem
      obtain ⟨y0, hy0mem, hy0⟩ := pyGroupByGo_key_mem key n _ hlen pr hpr
      have hgt : key x < pr.1 := by
        rw [hy0]
        exact mem_dropWhile_key_gt key (key x) xs hs.1 hs.2 y0 hy0mem
      rw [hfst] at hgt
      exact lt_irrefl _ hgt

/-! Section: Claim C6. -/

/-- C6: `group_by(key)` followed by `collect()` sorts by key and groups
consecutive runs: the produced pairs have pairwise-distinct keys (exactly
one pair per distinct key present), each pair's list is a permutation of
all input elements with that key regardless of their original positions,
every input element's key heads some pair, and the concatenation of all
group lists is a permutation of the input — every element lands in exactly
one group. -/
theorem groupBy_collect_spec [LinearOrder K] (key : τ → K) (l : List τ) :
    ((((mkStream l).group_by key).collect).1 = .ok (groupByTransform key l))
  ∧ (((groupByTransform key l).map Prod.fst).Nodup)
  ∧ (∀ pr ∈ groupByTransform key l, pr.2.Perm (l.filter (fun y => key y = pr.1)))
  ∧ (∀ y ∈ l, ∃ pr ∈ groupByTransform key l, pr.1 = key y)
  ∧ (((groupByTransform key l).map Prod.snd).flatten.Perm l) := by
  have hperm : (sortByKey key l).Perm l := List.perm_insertionSort _ l
  have hsorted : List.Sorted (fun a b => key a ≤ key b) (sortByKey key l) := by
    haveI h1 : IsTotal τ (fun a b => key a ≤ key b) := ⟨fun a b => le_total (key a) (key b)⟩
    haveI h2 : IsTrans τ (fun a b => key a ≤ key b) :=
      ⟨fun a b d hab hbd => le_trans hab hbd⟩
    exact List.sorted_insertionSort _ l
  have hflat : ((pyGroupByGo key (sortByKey key l).length (sortByKey key l)).map
      Prod.snd).flatten = sortByKey key l :=
    pyGroupByGo_flatten key _ _ le_rfl
  refine ⟨rfl, ?_, ?_, ?_, ?_⟩
  · exact pyGroupByGo_keys_nodup key _ _ le_rfl hsorted
  · intro pr hpr
    rw [pyGroupByGo_group_eq_filter key _ _ le_rfl hsorted pr hpr]
    exact hperm.filter _
  · intro y hy
    have hy2 : y ∈ sortByKey key l := hperm.mem_iff.mpr hy
    rw [← hflat] at hy2
    obtain ⟨gl, hgl, hygl⟩ := List.mem_flatten.mp hy2
    obtain ⟨pr, hpr, hsnd⟩ := List.mem_map.mp hgl
    rw [← hsnd] at hygl
    exact ⟨pr, hpr, (pyGroupByGo_homog key _ _ le_rfl pr hpr y hygl).symm⟩
  · show ((pyGroupByGo key (sortByKey key l).length (sortByKey key l)).map
      Prod.snd).flatten.Perm l
    rw [hflat]
    exact hperm

/-- C6 witness: grouping `[1,2,3,4,5,6]` by `n % 3` yields pairwise-distinct
keys. -/
theorem groupBy_collect_spec_witness :
    ((groupByTransform (fun n : Nat => n % 3) [1, 2, 3, 4, 5, 6]).map Prod.fst).Nodup :=
  (groupBy_collect_spec (fun n : Nat => n % 3) [1, 2, 3, 4, 5, 6]).2.1
